import Mathlib

/-!
Shallow embedding of `src/StudentManagementSystem.cpp`.

Modelling conventions:
* the C++ `float marks` field is modelled as `ℚ`: every use of marks in the
  source is an order comparison, an addition or a division, which `ℚ` models
  exactly for the decimal literals appearing in the claims;
* the C++ `int rollNo` is modelled as `Int` (no claim involves overflow);
* console I/O is stripped: each member function takes the values the shell
  would read from `cin` as arguments, and returns the new `students` vector
  together with the `StudentException` (if any) that its `catch` block would
  report.  The vector component equals the input vector whenever the
  exception was thrown before any mutation, exactly as in the source;
* the data file `students.dat` is a `List Char`; a missing file is `none`.
-/

namespace StudentManagementSystem

/- Rational arithmetic is irreducible by default; make it unfold so that the
decidability witnesses below evaluate inside the kernel. -/
attribute [local semireducible] Rat.mul Rat.add Rat.sub Rat.inv Rat.ofScientific

/-- The `StudentException` messages thrown by the source, as an enumeration.
`corrupted` is the "Corrupted data in file" exception that
`operator>>(ifstream&, Student&)` re-throws from its `catch (...)` block. -/
inductive StudentError where
  | nameEmpty
  | rollNegative
  | marksOutOfRange
  | duplicateRoll
  | notFound
  | corrupted
  deriving DecidableEq

/-- `class Student` (lines 22-66): fields `name`, `rollNo`, `marks`.
The derived `Inhabited` default `⟨"", 0, 0⟩` corresponds to the C++ default
constructor `Student()` with its default arguments. -/
structure Student where
  name : String
  rollNo : Int
  marks : ℚ
  deriving DecidableEq, Inhabited

/-- The validating constructor `Student(string, int, float)` (lines 30-34):
throws if `rollNo < 0` or `marks` outside `[0,100]`. -/
def mkStudent (n : String) (r : Int) (m : ℚ) : Except StudentError Student :=
  if r < 0 then .error .rollNegative
  else if m < 0 ∨ m > 100 then .error .marksOutOfRange
  else .ok { name := n, rollNo := r, marks := m }

/-- `Student::setName` (lines 42-45): rejects an empty name. -/
def setName (s : Student) (n : String) : Except StudentError Student :=
  if n = "" then .error .nameEmpty else .ok { s with name := n }

/-- `Student::setMarks` (lines 52-55): rejects marks outside `[0,100]`. -/
def setMarks (s : Student) (m : ℚ) : Except StudentError Student :=
  if m < 0 ∨ m > 100 then .error .marksOutOfRange else .ok { s with marks := m }

/-- The loop body of `findStudentIndex` (lines 151-158), with the loop
counter `i` made explicit. -/
def findStudentIndexAux (students : List Student) (rollNo : Int) (i : Int) : Int :=
  match students with
  | [] => -1
  | s :: rest => if s.rollNo = rollNo then i else findStudentIndexAux rest rollNo (i + 1)

/-- `StudentManagementSystem::findStudentIndex` (lines 151-158): linear scan,
returns the first index holding `rollNo`, or `-1`. -/
def findStudentIndex (students : List Student) (rollNo : Int) : Int :=
  findStudentIndexAux students rollNo 0

/-- `StudentManagementSystem::addStudent` (lines 188-228), with the three
values read from `cin` passed as arguments.  Checks, in source order:
empty name, negative roll number, marks range, duplicate roll number; then
constructs the `Student` (re-validating in the constructor) and appends it.
Any thrown `StudentException` is caught at the end of the function, leaving
the vector as it was. -/
def addStudent (students : List Student) (name : String) (rollNo : Int) (marks : ℚ) :
    List Student × Option StudentError :=
  if name = "" then (students, some .nameEmpty)
  else if rollNo < 0 then (students, some .rollNegative)
  else if marks < 0 ∨ marks > 100 then (students, some .marksOutOfRange)
  else if findStudentIndex students rollNo ≠ -1 then (students, some .duplicateRoll)
  else
    match mkStudent name rollNo marks with
    | .error e => (students, some e)
    | .ok st => (students ++ [st], none)

/-- `StudentManagementSystem::updateStudent` (lines 270-306).  Looks up the
roll number, validates the new name and marks as read, then calls
`setName` and `setMarks` on `students[index]` in place.  If `setName`
succeeded but `setMarks` threw, the name mutation would already have
happened (that branch is unreachable: marks were validated on line 297). -/
def updateStudent (students : List Student) (rollNo : Int) (newName : String)
    (newMarks : ℚ) : List Student × Option StudentError :=
  let index := findStudentIndex students rollNo
  if index = -1 then (students, some .notFound)
  else if newName = "" then (students, some .nameEmpty)
  else if newMarks < 0 ∨ newMarks > 100 then (students, some .marksOutOfRange)
  else
    match setName (students.getD index.toNat default) newName with
    | .error e => (students, some e)
    | .ok s1 =>
      match setMarks s1 newMarks with
      | .error e => (students.set index.toNat s1, some e)
      | .ok s2 => (students.set index.toNat s2, none)

/-- `StudentManagementSystem::deleteStudent` (lines 309-329):
`students.erase(students.begin() + index)`. -/
def deleteStudent (students : List Student) (rollNo : Int) :
    List Student × Option StudentError :=
  let index := findStudentIndex students rollNo
  if index = -1 then (students, some .notFound)
  else (students.eraseIdx index.toNat, none)

/-- `StudentManagementSystem::searchStudent` (lines 245-267): returns (for
display) `students[index]`, or the "Student not found" error. -/
def searchStudent (students : List Student) (rollNo : Int) :
    Except StudentError Student :=
  let index := findStudentIndex students rollNo
  if index = -1 then .error .notFound
  else .ok (students.getD index.toNat default)

/-- The accumulation loop of `showStatistics` (lines 338-343): running
`(total, maxMarks, minMarks)`. -/
def statsLoop (students : List Student) (acc : ℚ × ℚ × ℚ) : ℚ × ℚ × ℚ :=
  match students with
  | [] => acc
  | s :: rest =>
    statsLoop rest
      (acc.1 + s.marks,
       if s.marks > acc.2.1 then s.marks else acc.2.1,
       if s.marks < acc.2.2 then s.marks else acc.2.2)

/-- `StudentManagementSystem::showStatistics` (lines 332-350): `none` when the
store is empty, otherwise `(count, average, highest, lowest)`.  The
accumulators start from `students[0].getMarks()` and the loop runs over the
whole vector, as in the source. -/
def showStatistics (students : List Student) : Option (Nat × ℚ × ℚ × ℚ) :=
  match students with
  | [] => none
  | s0 :: _ =>
    let r := statsLoop students (0, s0.marks, s0.marks)
    some (students.length, r.1 / (students.length : ℚ), r.2.1, r.2.2)

/-! ### Persistence: the character-level stream model

`operator>>(ifstream&, Student&)` (lines 77-95) reads a name with `getline`,
a roll number with `ifs >> int`, marks with `ifs >> float`, then skips one
character with `ifs.ignore()`.  We model the remaining file contents as a
`List Char` and each extraction as a function consuming a prefix. -/

/-- Characters skipped by formatted extraction (`std::isspace`, default
locale). -/
def isStreamSpace (c : Char) : Bool :=
  c = ' ' || c = '\t' || c = '\n' || c = '\r' || c = '\x0B' || c = '\x0C'

/-- Splits off the characters before the first newline; the newline itself is
consumed and not returned (the behaviour of `std::getline`). -/
def splitAtNewline (cs : List Char) : List Char × List Char :=
  match cs with
  | [] => ([], [])
  | c :: rest =>
    if c = '\n' then ([], rest)
    else
      let p := splitAtNewline rest
      (c :: p.1, p.2)

/-- `getline(ifs, s.name)` (line 79): fails (sets `failbit`) exactly when the
stream is already at end-of-file, i.e. no character can be extracted. -/
def readLine (cs : List Char) : Option (String × List Char) :=
  match cs with
  | [] => none
  | c :: rest =>
    let p := splitAtNewline (c :: rest)
    some (String.mk p.1, p.2)

/-- Leading sign handling shared by the `int` and `float` extractors. -/
def readSign (cs : List Char) : Bool × List Char :=
  match cs with
  | [] => (false, [])
  | c :: rest =>
    if c = '-' then (true, rest)
    else if c = '+' then (false, rest)
    else (false, c :: rest)

/-- Decimal digit accumulation, most significant first. -/
def digitsToNat (ds : List Char) : Nat :=
  ds.foldl (fun a c => 10 * a + (c.toNat - 48)) 0

/-- `ifs >> s.rollNo` (line 82): skip whitespace, optional sign, then at
least one decimal digit; fails (sets `failbit`) otherwise. -/
def readInt (cs : List Char) : Option (Int × List Char) :=
  let p := readSign (cs.dropWhile fun c => isStreamSpace c)
  let ds := p.2.takeWhile Char.isDigit
  if ds = [] then none
  else
    some (if p.1 then -(digitsToNat ds : Int) else (digitsToNat ds : Int),
      p.2.dropWhile Char.isDigit)

/-- Fractional part of a float token: a `'.'` followed by digits (both the
digits and the remainder are returned); no dot means no fractional part. -/
def readFrac (cs : List Char) : List Char × List Char :=
  match cs with
  | [] => ([], [])
  | c :: rest =>
    if c = '.' then (rest.takeWhile Char.isDigit, rest.dropWhile Char.isDigit)
    else ([], c :: rest)

/-- Optional exponent of a float token: `e`/`E`, optional sign, at least one
digit; an `e` with no digits fails the whole extraction. -/
def readExp (v : ℚ) (cs : List Char) : Option (ℚ × List Char) :=
  match cs with
  | [] => some (v, [])
  | c :: rest =>
    if c = 'e' ∨ c = 'E' then
      let p := readSign rest
      let ds := p.2.takeWhile Char.isDigit
      if ds = [] then none
      else
        some (if p.1 then v / (10 : ℚ) ^ digitsToNat ds
              else v * (10 : ℚ) ^ digitsToNat ds,
          p.2.dropWhile Char.isDigit)
    else some (v, c :: rest)

/-- `ifs >> s.marks` (line 85): skip whitespace, optional sign, decimal
mantissa (at least one digit overall), optional exponent.  The value is
exact in `ℚ`. -/
def readFloat (cs : List Char) : Option (ℚ × List Char) :=
  let p := readSign (cs.dropWhile fun c => isStreamSpace c)
  let ip := p.2.takeWhile Char.isDigit
  let cs3 := p.2.dropWhile Char.isDigit
  let fr := readFrac cs3
  if ip = [] ∧ fr.1 = [] then none
  else
    let mant : ℚ := (digitsToNat ip : ℚ) + (digitsToNat fr.1 : ℚ) / (10 : ℚ) ^ fr.1.length
    readExp (if p.1 then -mant else mant) fr.2

/-- Outcome of one `file >> s` evaluation in the loop condition.
`corrupt`: an extraction set `failbit` and one of the checks on lines 80, 83,
86 threw (re-thrown as "Corrupted data in file").  `cleanEOF`: every field
was read but the marks token was terminated directly by end-of-file, so the
float extraction set `eofbit` only; `ifs.ignore()`'s sentry then sees a
non-good stream and sets `failbit` without throwing (there is no fail-check
after `ignore()`), and `operator>>` returns a failed stream — the record in
`s` is parsed but the `while` condition becomes false.  `ok`: the record was
read and `ignore()` consumed one character from a good stream. -/
inductive ReadResult where
  | corrupt
  | cleanEOF (s : Student)
  | ok (s : Student) (rest : List Char)
  deriving DecidableEq

/-- `operator>>(ifstream&, Student&)` (lines 77-95): name line, roll number,
marks, then `ifs.ignore()`.  An extraction that consumes the token up to the
very end of the input sets `eofbit`; the next extraction's sentry turns that
into `failbit` (and for the checked reads, into a throw).  That is why an
empty remainder at any of the three reads yields `corrupt`, while an empty
remainder after a successful marks read yields `cleanEOF`.  The fields are
assigned directly (friend access): nothing is validated. -/
def readStudent (cs : List Char) : ReadResult :=
  match readLine cs with
  | none => .corrupt
  | some (nm, cs1) =>
    match readInt cs1 with
    | none => .corrupt
    | some (r, cs2) =>
      match readFloat cs2 with
      | none => .corrupt
      | some (m, cs3) =>
        match cs3 with
        | [] => .cleanEOF { name := nm, rollNo := r, marks := m }
        | _ :: rest => .ok { name := nm, rollNo := r, marks := m } rest

/-- The `while (file >> s) students.push_back(s);` loop of `loadFromFile`
(lines 112-114).  On `corrupt` the exception propagates; on `cleanEOF` the
`while` condition is false, the loop exits normally and the record parsed in
that final iteration is never pushed.  The `fuel` argument is only a
termination measure: every `ok` iteration consumes at least one character
(`readStudent_length_lt`), so `cs.length + 1` steps always suffice; the
`fuel = 0` branch is never reached from `loadFromFile`. -/
def loadLoop (fuel : Nat) (cs : List Char) (students : List Student) :
    List Student × Option StudentError :=
  match fuel with
  | 0 => (students, none)
  | fuel + 1 =>
    match readStudent cs with
    | .corrupt => (students, some .corrupted)
    | .cleanEOF _ => (students, none)
    | .ok s rest => loadLoop fuel rest (students ++ [s])

/-- `StudentManagementSystem::loadFromFile` (lines 103-125).  A missing file
(`none`) leaves the vector untouched ("Starting fresh").  Otherwise the read
loop runs; if it ends in an exception the `catch` block clears the vector
("Starting with empty database").  The `file.bad()` check models physical
read errors, which the in-memory file cannot produce. -/
def loadFromFile (file : Option (List Char)) (students : List Student) :
    List Student × Option StudentError :=
  match file with
  | none => (students, none)
  | some cs =>
    match loadLoop (cs.length + 1) cs students with
    | (sts, none) => (sts, none)
    | (_, some e) => ([], some e)

/-! ### Persistence: writing -/

/-- Drops trailing `'0'` characters. -/
def trimZeros (ds : List Char) : List Char :=
  (ds.reverse.dropWhile fun c => c = '0').reverse

/-- Nearest integer, ties to even — the rounding default `ostream` formatting
applies to the last printed digit.  Used on nonnegative arguments only, where
`num / den` is the floor. -/
def roundHalfEven (q : ℚ) : Int :=
  let fl := q.num / (q.den : Int)
  if q - (fl : ℚ) < 1 / 2 then fl
  else if q - (fl : ℚ) > 1 / 2 then fl + 1
  else if fl % 2 = 0 then fl else fl + 1

/-- Zero digits between the decimal point and the first significant digit of
`q ∈ [0,1)`.  Fuel 3 covers the whole fixed-notation regime of `%g` (decimal
exponent ≥ -4); smaller values would be printed in scientific notation by
the source, outside this model's scope. -/
def leadingZerosAux (fuel : Nat) (q : ℚ) : Nat :=
  match fuel with
  | 0 => 0
  | fuel + 1 => if q * 10 < 1 then leadingZerosAux fuel (q * 10) + 1 else 0

/-- Decimal digits of `n`, left-padded with zeros to the given width. -/
def padDigits (n width : Nat) : List Char :=
  List.replicate (width - (Nat.repr n).length) '0' ++ (Nat.repr n).data

/-- Model of `ofs << s.marks` (line 72): default `ostream` float formatting —
six significant digits, rounded half-to-even at the last digit, trailing
fractional zeros trimmed, fixed notation (the regime covering all magnitudes
a marks value takes). -/
def marksToChars (q : ℚ) : List Char :=
  let sign : List Char := if q < 0 then ['-'] else []
  let a := if q < 0 then -q else q
  let ipNat := (a.num / (a.den : Int)).toNat
  let intDigits := if ipNat = 0 then 0 else (Nat.repr ipNat).length
  let slots := (6 - intDigits)
    + (if ipNat = 0 then leadingZerosAux 3 (a - (ipNat : ℚ)) else 0)
  let scaled := (roundHalfEven (a * (10 : ℚ) ^ slots)).toNat
  let frac := trimZeros (padDigits (scaled % 10 ^ slots) slots)
  sign ++ (Nat.repr (scaled / 10 ^ slots)).data
    ++ (if frac = [] then [] else '.' :: frac)

/-- `ofs << s.rollNo` (line 71): decimal integer output. -/
def intToChars (r : Int) : List Char := (toString r).data

/-- `operator<<(ofstream&, const Student&)` (lines 69-74): the three fields,
each followed by `endl`. -/
def writeStudent (s : Student) : List Char :=
  s.name.data ++ ['\n'] ++ intToChars s.rollNo ++ ['\n'] ++ marksToChars s.marks ++ ['\n']

/-- `StudentManagementSystem::saveToFile` (lines 128-148): truncate and write
every record in store order.  In-memory writes cannot fail, so the
`IOError` paths of the source are not reachable in the model. -/
def saveToFile (students : List Student) : List Char :=
  (students.map writeStudent).flatten

/-! ### The read loop always ends in the corruption handler

Every successful extraction consumes at least one character, and extraction
at end-of-file fails; hence the `while (file >> s)` loop always terminates by
throwing, never by a clean end-of-stream. -/

theorem length_dropWhile_le {α : Type} (p : α → Bool) (l : List α) :
    (l.dropWhile p).length ≤ l.length := by
  induction l with
  | nil => simp [List.dropWhile]
  | cons c rest ih =>
    simp only [List.dropWhile]
    split
    · exact Nat.le_succ_of_le ih
    · exact Nat.le_refl _

theorem splitAtNewline_snd_length_le (cs : List Char) :
    (splitAtNewline cs).2.length ≤ cs.length := by
  induction cs with
  | nil => simp [splitAtNewline]
  | cons c rest ih =>
    simp only [splitAtNewline]
    split
    · exact Nat.le_succ _
    · exact Nat.le_succ_of_le ih

theorem readLine_length_lt {cs rest : List Char} {nm : String}
    (h : readLine cs = some (nm, rest)) : rest.length < cs.length := by
  cases cs with
  | nil => simp [readLine] at h
  | cons c tl =>
    simp only [readLine, Option.some.injEq, Prod.mk.injEq] at h
    obtain ⟨-, h2⟩ := h
    subst h2
    simp only [splitAtNewline]
    split
    · exact Nat.lt_succ_self _
    · exact Nat.lt_succ_of_le (splitAtNewline_snd_length_le tl)

theorem readSign_length_le (cs : List Char) : (readSign cs).2.length ≤ cs.length := by
  cases cs with
  | nil => simp [readSign]
  | cons c tl =>
    simp only [readSign]
    split
    · exact Nat.le_succ _
    · split
      · exact Nat.le_succ _
      · exact Nat.le_refl _

theorem readInt_length_le {cs rest : List Char} {r : Int}
    (h : readInt cs = some (r, rest)) : rest.length ≤ cs.length := by
  simp only [readInt] at h
  split at h
  · exact absurd h (by simp)
  · simp only [Option.some.injEq, Prod.mk.injEq] at h
    obtain ⟨-, h2⟩ := h
    subst h2
    calc ((readSign (cs.dropWhile fun c => isStreamSpace c)).2.dropWhile Char.isDigit).length
        ≤ (readSign (cs.dropWhile fun c => isStreamSpace c)).2.length :=
          length_dropWhile_le _ _
      _ ≤ (cs.dropWhile fun c => isStreamSpace c).length := readSign_length_le _
      _ ≤ cs.length := length_dropWhile_le _ _

theorem readFrac_snd_length_le (cs : List Char) :
    (readFrac cs).2.length ≤ cs.length := by
  cases cs with
  | nil => simp [readFrac]
  | cons c tl =>
    simp only [readFrac]
    split
    · exact Nat.le_succ_of_le (length_dropWhile_le _ _)
    · exact Nat.le_refl _

theorem readExp_length_le {cs rest : List Char} {v q : ℚ}
    (h : readExp v cs = some (q, rest)) : rest.length ≤ cs.length := by
  cases cs with
  | nil =>
    simp only [readExp, Option.some.injEq, Prod.mk.injEq] at h
    obtain ⟨-, h2⟩ := h
    subst h2
    exact Nat.le_refl _
  | cons c tl =>
    simp only [readExp] at h
    split at h
    · split at h
      · exact absurd h (by simp)
      · simp only [Option.some.injEq, Prod.mk.injEq] at h
        obtain ⟨-, h2⟩ := h
        subst h2
        calc ((readSign tl).2.dropWhile Char.isDigit).length
            ≤ (readSign tl).2.length := length_dropWhile_le _ _
          _ ≤ tl.length := readSign_length_le _
          _ ≤ tl.length + 1 := Nat.le_succ _
    · simp only [Option.some.injEq, Prod.mk.injEq] at h
      obtain ⟨-, h2⟩ := h
      subst h2
      exact Nat.le_refl _

theorem readFloat_length_le {cs rest : List Char} {q : ℚ}
    (h : readFloat cs = some (q, rest)) : rest.length ≤ cs.length := by
  simp only [readFloat] at h
  split at h
  · exact absurd h (by simp)
  · calc rest.length
        ≤ (readFrac ((readSign (cs.dropWhile fun c => isStreamSpace c)).2.dropWhile
            Char.isDigit)).2.length := readExp_length_le h
      _ ≤ ((readSign (cs.dropWhile fun c => isStreamSpace c)).2.dropWhile
            Char.isDigit).length := readFrac_snd_length_le _
      _ ≤ (readSign (cs.dropWhile fun c => isStreamSpace c)).2.length :=
          length_dropWhile_le _ _
      _ ≤ (cs.dropWhile fun c => isStreamSpace c).length := readSign_length_le _
      _ ≤ cs.length := length_dropWhile_le _ _

theorem readStudent_length_lt {cs rest : List Char} {s : Student}
    (h : readStudent cs = .ok s rest) : rest.length < cs.length := by
  cases hL : readLine cs with
  | none => simp [readStudent, hL] at h
  | some prl =>
    obtain ⟨nm, cs1⟩ := prl
    cases hI : readInt cs1 with
    | none => simp [readStudent, hL, hI] at h
    | some pri =>
      obtain ⟨r, cs2⟩ := pri
      cases hF : readFloat cs2 with
      | none => simp [readStudent, hL, hI, hF] at h
      | some prf =>
        obtain ⟨m, cs3⟩ := prf
        cases cs3 with
        | nil => simp [readStudent, hL, hI, hF] at h
        | cons c tl =>
          simp only [readStudent, hL, hI, hF, ReadResult.ok.injEq] at h
          obtain ⟨-, h2⟩ := h
          subst h2
          calc tl.length
              < (c :: tl).length := Nat.lt_succ_self _
            _ ≤ cs2.length := readFloat_length_le hF
            _ ≤ cs1.length := readInt_length_le hI
            _ < cs.length := readLine_length_lt hL

/-! ### Files ending in a newline always reach the corruption handler

The clean exit of the read loop needs the marks token to run into
end-of-file.  When the remaining stream ends with a newline, a successful
marks extraction always leaves that newline (or more) unread, so the clean
exit cannot happen and the loop keeps going until an extraction fails. -/

theorem getLast?_cons_of_ne_nil {c : Char} {l : List Char} (h : l ≠ []) :
    (c :: l).getLast? = l.getLast? := by
  cases l with
  | nil => exact absurd rfl h
  | cons b t => exact List.getLast?_cons_cons

theorem getLast?_append_right (l1 l2 : List Char) {c : Char}
    (h : l2.getLast? = some c) : (l1 ++ l2).getLast? = some c := by
  rw [List.getLast?_append, h]
  rfl

theorem dropWhile_endsNL (p : Char → Bool) (hp : p '\n' = false) :
    ∀ l : List Char, l.getLast? = some '\n' →
      l.dropWhile p ≠ [] ∧ (l.dropWhile p).getLast? = some '\n' := by
  intro l
  induction l with
  | nil => intro h; simp at h
  | cons c tl ih =>
    intro h
    by_cases hc : p c
    · cases tl with
      | nil =>
        simp only [List.getLast?_singleton, Option.some.injEq] at h
        rw [h] at hc
        rw [hp] at hc
        exact absurd hc (by simp)
      | cons b t =>
        have h2 : (b :: t).getLast? = some '\n' := by
          rwa [List.getLast?_cons_cons] at h
        have h3 := ih h2
        constructor
        · simpa [List.dropWhile, hc] using h3.1
        · simpa [List.dropWhile, hc] using h3.2
    · constructor
      · simp [List.dropWhile, hc]
      · simpa [List.dropWhile, hc] using h

theorem dropWhile_getLast_of_ne_nil (p : Char → Bool) :
    ∀ l : List Char, l.getLast? = some '\n' → l.dropWhile p ≠ [] →
      (l.dropWhile p).getLast? = some '\n' := by
  intro l
  induction l with
  | nil => intro h; simp at h
  | cons c tl ih =>
    intro h hne
    by_cases hc : p c
    · have htl : tl ≠ [] := by
        intro he
        subst he
        simp [List.dropWhile, hc] at hne
      have h2 : tl.getLast? = some '\n' := by rwa [getLast?_cons_of_ne_nil htl] at h
      have hd : (c :: tl).dropWhile p = tl.dropWhile p := by simp [List.dropWhile, hc]
      rw [hd] at hne ⊢
      exact ih h2 hne
    · have hd : (c :: tl).dropWhile p = c :: tl := by simp [List.dropWhile, hc]
      rw [hd]
      exact h

theorem readSign_endsNL (cs : List Char) (h : cs.getLast? = some '\n') :
    (readSign cs).2 ≠ [] ∧ (readSign cs).2.getLast? = some '\n' := by
  cases cs with
  | nil => simp at h
  | cons c tl =>
    simp only [readSign]
    split
    next hminus =>
      cases tl with
      | nil =>
        subst hminus
        simp only [List.getLast?_singleton, Option.some.injEq] at h
        exact absurd h (by decide)
      | cons b t =>
        rw [getLast?_cons_of_ne_nil (by simp)] at h
        exact ⟨by simp, h⟩
    next h1 =>
      split
      next hplus =>
        cases tl with
        | nil =>
          subst hplus
          simp only [List.getLast?_singleton, Option.some.injEq] at h
          exact absurd h (by decide)
        | cons b t =>
          rw [getLast?_cons_of_ne_nil (by simp)] at h
          exact ⟨by simp, h⟩
      next h2 => exact ⟨by simp, h⟩

theorem readFrac_endsNL (cs : List Char) (h : cs.getLast? = some '\n') :
    (readFrac cs).2 ≠ [] ∧ (readFrac cs).2.getLast? = some '\n' := by
  cases cs with
  | nil => simp at h
  | cons c tl =>
    simp only [readFrac]
    split
    next hdot =>
      cases tl with
      | nil =>
        subst hdot
        simp only [List.getLast?_singleton, Option.some.injEq] at h
        exact absurd h (by decide)
      | cons b t =>
        rw [getLast?_cons_of_ne_nil (by simp)] at h
        exact dropWhile_endsNL Char.isDigit (by decide) (b :: t) h
    next hndot => exact ⟨by simp, h⟩

theorem readExp_endsNL {cs d : List Char} {v q : ℚ} (h : cs.getLast? = some '\n')
    (he : readExp v cs = some (q, d)) : d ≠ [] ∧ d.getLast? = some '\n' := by
  cases cs with
  | nil => simp at h
  | cons c tl =>
    simp only [readExp] at he
    split at he
    next hee =>
      have htl : tl ≠ [] := by
        intro he2
        subst he2
        simp only [List.getLast?_singleton, Option.some.injEq] at h
        rcases hee with h1 | h1 <;> (rw [h] at h1; exact absurd h1 (by decide))
      rw [getLast?_cons_of_ne_nil htl] at h
      obtain ⟨hsne, hs⟩ := readSign_endsNL tl h
      split at he
      · exact absurd he (by simp)
      · simp only [Option.some.injEq, Prod.mk.injEq] at he
        obtain ⟨-, h2⟩ := he
        subst h2
        exact dropWhile_endsNL Char.isDigit (by decide) _ hs
    next hne =>
      simp only [Option.some.injEq, Prod.mk.injEq] at he
      obtain ⟨-, h2⟩ := he
      subst h2
      exact ⟨by simp, h⟩

theorem readFloat_endsNL {cs d : List Char} {m : ℚ} (h : cs.getLast? = some '\n')
    (hf : readFloat cs = some (m, d)) : d ≠ [] ∧ d.getLast? = some '\n' := by
  simp only [readFloat] at hf
  split at hf
  · exact absurd hf (by simp)
  next hcond =>
    by_cases ha : cs.dropWhile (fun c => isStreamSpace c) = []
    · exfalso
      apply hcond
      rw [ha]
      exact ⟨rfl, rfl⟩
    · have hals := dropWhile_getLast_of_ne_nil _ cs h ha
      obtain ⟨hbne, hb⟩ := readSign_endsNL _ hals
      have hcs3 := dropWhile_endsNL Char.isDigit (by decide) _ hb
      obtain ⟨hfne, hfr⟩ := readFrac_endsNL _ hcs3.2
      exact readExp_endsNL hfr hf

theorem readInt_endsNL {cs d : List Char} {r : Int} (h : cs.getLast? = some '\n')
    (hi : readInt cs = some (r, d)) : d ≠ [] ∧ d.getLast? = some '\n' := by
  simp only [readInt] at hi
  split at hi
  next hds => exact absurd hi (by simp)
  next hds =>
    simp only [Option.some.injEq, Prod.mk.injEq] at hi
    obtain ⟨-, h2⟩ := hi
    subst h2
    by_cases ha : cs.dropWhile (fun c => isStreamSpace c) = []
    · exfalso
      apply hds
      rw [ha]
      rfl
    · have hals := dropWhile_getLast_of_ne_nil _ cs h ha
      obtain ⟨hbne, hb⟩ := readSign_endsNL _ hals
      exact dropWhile_endsNL Char.isDigit (by decide) _ hb

theorem splitAtNewline_snd_endsNL : ∀ cs : List Char, cs.getLast? = some '\n' →
    (splitAtNewline cs).2 = [] ∨ (splitAtNewline cs).2.getLast? = some '\n' := by
  intro cs
  induction cs with
  | nil => intro h; simp at h
  | cons c tl ih =>
    intro h
    simp only [splitAtNewline]
    split
    next hnl =>
      cases tl with
      | nil => exact Or.inl rfl
      | cons b t =>
        right
        rwa [getLast?_cons_of_ne_nil (by simp)] at h
    next hnnl =>
      have htl : tl ≠ [] := by
        intro he
        subst he
        simp only [List.getLast?_singleton, Option.some.injEq] at h
        exact hnnl h
      rw [getLast?_cons_of_ne_nil htl] at h
      exact ih h

theorem readLine_endsNL {cs d : List Char} {nm : String} (h : cs.getLast? = some '\n')
    (hl : readLine cs = some (nm, d)) : d = [] ∨ d.getLast? = some '\n' := by
  cases cs with
  | nil => simp [readLine] at hl
  | cons c tl =>
    simp only [readLine, Option.some.injEq, Prod.mk.injEq] at hl
    obtain ⟨-, h2⟩ := hl
    exact h2 ▸ splitAtNewline_snd_endsNL (c :: tl) h

theorem readStudent_endsNL (cs : List Char) (h : cs.getLast? = some '\n') :
    readStudent cs = .corrupt
    ∨ ∃ s rest, readStudent cs = .ok s rest
        ∧ (rest = [] ∨ rest.getLast? = some '\n') := by
  cases hL : readLine cs with
  | none => exact Or.inl (by simp [readStudent, hL])
  | some prl =>
    obtain ⟨nm, cs1⟩ := prl
    rcases readLine_endsNL h hL with rfl | h1
    · left
      have hI : readInt ([] : List Char) = none := rfl
      simp [readStudent, hL, hI]
    · cases hI : readInt cs1 with
      | none => exact Or.inl (by simp [readStudent, hL, hI])
      | some pri =>
        obtain ⟨r, cs2⟩ := pri
        obtain ⟨h2ne, h2⟩ := readInt_endsNL h1 hI
        cases hF : readFloat cs2 with
        | none => exact Or.inl (by simp [readStudent, hL, hI, hF])
        | some prf =>
          obtain ⟨m, cs3⟩ := prf
          obtain ⟨h3ne, h3⟩ := readFloat_endsNL h2 hF
          cases cs3 with
          | nil => exact absurd rfl h3ne
          | cons c tl =>
            right
            refine ⟨{ name := nm, rollNo := r, marks := m }, tl,
              by simp [readStudent, hL, hI, hF], ?_⟩
            by_cases htl : tl = []
            · exact Or.inl htl
            · right
              rwa [getLast?_cons_of_ne_nil htl] at h3

theorem loadLoop_corrupts_endsNL (fuel : Nat) :
    ∀ (cs : List Char) (students : List Student), cs.length < fuel →
      (cs = [] ∨ cs.getLast? = some '\n') →
      ∃ acc, loadLoop fuel cs students = (acc, some .corrupted) := by
  induction fuel with
  | zero => intro cs students h hcs; exact absurd h (Nat.not_lt_zero _)
  | succ n ih =>
    intro cs students hlen hcs
    rcases hcs with rfl | hnl
    · have hr : readStudent ([] : List Char) = .corrupt := rfl
      exact ⟨students, by simp [loadLoop, hr]⟩
    · rcases readStudent_endsNL cs hnl with hc | ⟨s, rest, hok, hrest⟩
      · exact ⟨students, by simp [loadLoop, hc]⟩
      · have hlt := readStudent_length_lt hok
        obtain ⟨acc, hacc⟩ := ih rest (students ++ [s]) (by omega) hrest
        exact ⟨acc, by simp [loadLoop, hok, hacc]⟩

/-- An existing data file that is empty or ends with a newline always drives
`loadFromFile` into the corruption handler, which clears the vector. -/
theorem loadFromFile_clears_endsNL (cs : List Char) (students : List Student)
    (h : cs = [] ∨ cs.getLast? = some '\n') :
    loadFromFile (some cs) students = ([], some .corrupted) := by
  obtain ⟨acc, hacc⟩ := loadLoop_corrupts_endsNL (cs.length + 1) cs students
    (Nat.lt_succ_self _) h
  simp [loadFromFile, hacc]

theorem writeStudent_endsNL (s : Student) : (writeStudent s).getLast? = some '\n' := by
  simp only [writeStudent]
  exact List.getLast?_concat _

theorem saveToFile_endsNL (store : List Student) :
    saveToFile store = [] ∨ (saveToFile store).getLast? = some '\n' := by
  induction store with
  | nil => exact Or.inl rfl
  | cons s t ih =>
    right
    simp only [saveToFile, List.map_cons, List.flatten_cons]
    rcases ih with he | hnl
    · simp only [saveToFile] at he
      rw [he, List.append_nil]
      exact writeStudent_endsNL s
    · exact getLast?_append_right _ _ (by simpa [saveToFile] using hnl)

/-- Every file produced by `saveToFile` (its records are newline-terminated)
reloads as the empty store with a corruption error. -/
theorem loadFromFile_save_clears (store prior : List Student) :
    loadFromFile (some (saveToFile store)) prior = ([], some .corrupted) :=
  loadFromFile_clears_endsNL _ _ (saveToFile_endsNL store)

/-- A mid-stream parse failure: running the record reader from this stream
position eventually hits an extraction that sets `failbit` and throws the
corruption exception (rather than the clean end-of-stream exit). -/
inductive ParseFailsFrom : List Char → Prop where
  | here (cs : List Char) (h : readStudent cs = .corrupt) : ParseFailsFrom cs
  | step (cs : List Char) (s : Student) (rest : List Char)
      (h : readStudent cs = .ok s rest) (ht : ParseFailsFrom rest) : ParseFailsFrom cs

theorem loadLoop_corrupts_of_parseFails {cs : List Char} (hpf : ParseFailsFrom cs) :
    ∀ (fuel : Nat) (students : List Student), cs.length < fuel →
      ∃ acc, loadLoop fuel cs students = (acc, some .corrupted) := by
  induction hpf with
  | here cs h =>
    intro fuel students hlen
    cases fuel with
    | zero => exact absurd hlen (Nat.not_lt_zero _)
    | succ n => exact ⟨students, by simp [loadLoop, h]⟩
  | step cs s rest h ht ih =>
    intro fuel students hlen
    cases fuel with
    | zero => exact absurd hlen (Nat.not_lt_zero _)
    | succ n =>
      have hlt := readStudent_length_lt h
      obtain ⟨acc, hacc⟩ := ih n (students ++ [s]) (by omega)
      exact ⟨acc, by simp [loadLoop, h, hacc]⟩

/-- When the contents fail to parse mid-stream, the corruption handler runs
and the store comes back empty. -/
theorem loadFromFile_clears_of_parseFails (cs : List Char) (students : List Student)
    (h : ParseFailsFrom cs) :
    loadFromFile (some cs) students = ([], some .corrupted) := by
  obtain ⟨acc, hacc⟩ := loadLoop_corrupts_of_parseFails h (cs.length + 1) students
    (Nat.lt_succ_self _)
  simp [loadFromFile, hacc]

/-! ### Characterisation of the linear scan findStudentIndex -/

theorem findStudentIndexAux_eq_neg1_iff (students : List Student) (rollNo : Int) :
    ∀ i : Int, 0 ≤ i →
      (findStudentIndexAux students rollNo i = -1 ↔
        ∀ st ∈ students, st.rollNo ≠ rollNo) := by
  induction students with
  | nil => intro i hi; simp [findStudentIndexAux]
  | cons a t ih =>
    intro i hi
    simp only [findStudentIndexAux]
    split
    next hEq =>
      apply iff_of_false
      · omega
      · intro hall; exact hall a (List.mem_cons_self a t) hEq
    next hNe =>
      rw [ih (i + 1) (by omega), List.forall_mem_cons]
      exact (and_iff_right hNe).symm

theorem findStudentIndex_eq_neg1_iff (students : List Student) (rollNo : Int) :
    findStudentIndex students rollNo = -1 ↔ ∀ st ∈ students, st.rollNo ≠ rollNo :=
  findStudentIndexAux_eq_neg1_iff students rollNo 0 (by omega)

theorem findStudentIndexAux_first (students : List Student) (rollNo : Int) :
    ∀ (i : Int) (j : Nat), j < students.length →
      (students.getD j default).rollNo = rollNo →
      (∀ k, k < j → (students.getD k default).rollNo ≠ rollNo) →
      findStudentIndexAux students rollNo i = i + j := by
  induction students with
  | nil => intro i j hj; intro h1 h2; simp at hj
  | cons a t ih =>
    intro i j hj hja hfirst
    cases j with
    | zero =>
      simp only [List.getD_cons_zero] at hja
      simp [findStudentIndexAux, hja]
    | succ j =>
      have ha : a.rollNo ≠ rollNo := by simpa using hfirst 0 (Nat.succ_pos _)
      simp only [findStudentIndexAux, if_neg ha]
      rw [ih (i + 1) j (by simpa using hj) (by simpa using hja)
        (fun k hk => by simpa using hfirst (k + 1) (by omega))]
      push_cast
      ring

theorem findStudentIndex_found {students : List Student} {rollNo : Int} {j : Nat}
    (hj : j < students.length) (hja : (students.getD j default).rollNo = rollNo)
    (hfirst : ∀ k, k < j → (students.getD k default).rollNo ≠ rollNo) :
    findStudentIndex students rollNo = j := by
  have h := findStudentIndexAux_first students rollNo 0 j hj hja hfirst
  simpa [findStudentIndex] using h

theorem exists_first_index (students : List Student) (rollNo : Int)
    (h : ∃ st ∈ students, st.rollNo = rollNo) :
    ∃ j : Nat, j < students.length ∧ (students.getD j default).rollNo = rollNo ∧
      ∀ k, k < j → (students.getD k default).rollNo ≠ rollNo := by
  induction students with
  | nil => simp at h
  | cons a t ih =>
    by_cases ha : a.rollNo = rollNo
    · exact ⟨0, by simp, by simpa using ha, fun k hk => absurd hk (by omega)⟩
    · have h2 : ∃ st ∈ t, st.rollNo = rollNo := by
        rcases h with ⟨st, hmem, hr⟩
        rcases List.mem_cons.mp hmem with rfl | hm
        · exact absurd hr ha
        · exact ⟨st, hm, hr⟩
      obtain ⟨j, hj, hja, hfirst⟩ := ih h2
      refine ⟨j + 1, by simpa using hj, by simpa using hja, ?_⟩
      intro k hk
      cases k with
      | zero => simpa using ha
      | succ k => simpa using hfirst k (by omega)

theorem findStudentIndexAux_append_no_match (l1 l2 : List Student) (rollNo : Int)
    (h : ∀ st ∈ l1, st.rollNo ≠ rollNo) :
    ∀ i : Int, findStudentIndexAux (l1 ++ l2) rollNo i
      = findStudentIndexAux l2 rollNo (i + l1.length) := by
  induction l1 with
  | nil => intro i; simp
  | cons a t ih =>
    intro i
    have ha : a.rollNo ≠ rollNo := h a (List.mem_cons_self a t)
    simp only [List.cons_append, findStudentIndexAux, if_neg ha, List.append_eq]
    rw [ih (fun st hst => h st (List.mem_cons_of_mem _ hst)) (i + 1)]
    congr 1
    simp only [List.length_cons]
    push_cast
    ring

/-! ### Small list facts used by the operation proofs -/

theorem getD_append_length {α : Type} (l : List α) (a d : α) :
    (l ++ [a]).getD l.length d = a := by
  induction l with
  | nil => simp
  | cons b t ih => simp [ih]

theorem set_getD_self {α : Type} (l : List α) (j : Nat) (d : α) (h : j < l.length) :
    l.set j (l.getD j d) = l := by
  induction l generalizing j with
  | nil => simp at h
  | cons a t ih =>
    cases j with
    | zero => simp
    | succ j => simpa using ih j (by simpa using h)

theorem getD_map_rollNo (l : List Student) (j : Nat) :
    (l.map Student.rollNo).getD j 0 = (l.getD j default).rollNo := by
  induction l generalizing j with
  | nil => rfl
  | cons a t ih =>
    cases j with
    | zero => simp
    | succ j => simpa using ih j

theorem getD_mem_of_lt {α : Type} (l : List α) (j : Nat) (d : α) (h : j < l.length) :
    l.getD j d ∈ l := by
  induction l generalizing j with
  | nil => simp at h
  | cons a t ih =>
    cases j with
    | zero => simp
    | succ j => exact List.mem_cons_of_mem _ (ih j (by simpa using h))

theorem map_eraseIdx_comm {α β : Type} (f : α → β) (l : List α) (j : Nat) :
    (l.eraseIdx j).map f = (l.map f).eraseIdx j := by
  induction l generalizing j with
  | nil => simp
  | cons a t ih =>
    cases j with
    | zero => simp
    | succ j => simp [ih]

theorem nodup_getD_not_mem_eraseIdx (L : List Int) (j : Nat) (hnd : L.Nodup)
    (hj : j < L.length) : L.getD j 0 ∉ L.eraseIdx j := by
  induction L generalizing j with
  | nil => simp at hj
  | cons a t ih =>
    cases j with
    | zero =>
      simp only [List.getD_cons_zero, List.eraseIdx_cons_zero]
      exact (List.nodup_cons.mp hnd).1
    | succ j =>
      simp only [List.getD_cons_succ, List.eraseIdx_cons_succ]
      intro hmem
      rcases List.mem_cons.mp hmem with heq | hmem2
      · have hmem3 : t.getD j 0 ∈ t := getD_mem_of_lt t j 0 (by simpa using hj)
        rw [heq] at hmem3
        exact (List.nodup_cons.mp hnd).1 hmem3
      · exact ih j (List.nodup_cons.mp hnd).2 (by simpa using hj) hmem2

/-! ### Behaviour of addStudent and updateStudent -/

theorem addStudent_success (s : List Student) (n : String) (r : Int) (m : ℚ)
    (h1 : ¬n = "") (h2 : ¬r < 0) (h3 : ¬(m < 0 ∨ m > 100))
    (h4 : findStudentIndex s r = -1) :
    addStudent s n r m = (s ++ [{ name := n, rollNo := r, marks := m }], none) := by
  have h4n : ¬findStudentIndex s r ≠ -1 := fun hc => hc h4
  simp only [addStudent, if_neg h1, if_neg h2, if_neg h3, if_neg h4n,
    mkStudent]

theorem addStudent_store_eq_or_none (s : List Student) (n : String) (r : Int) (m : ℚ) :
    (addStudent s n r m).1 = s ∨ (addStudent s n r m).2 = none := by
  simp only [addStudent]
  split
  · exact Or.inl rfl
  · split
    · exact Or.inl rfl
    · split
      · exact Or.inl rfl
      · split
        · exact Or.inl rfl
        · cases hmk : mkStudent n r m with
          | error e => simp [hmk]
          | ok st => simp [hmk]

theorem addStudent_error_iff (s : List Student) (n : String) (r : Int) (m : ℚ) :
    (addStudent s n r m).2.isSome
      ↔ (n = "" ∨ r < 0 ∨ m < 0 ∨ m > 100 ∨ findStudentIndex s r ≠ -1) := by
  simp only [addStudent]
  split
  next h => simp [h]
  next h1 =>
    split
    next h => simp [h]
    next h2 =>
      split
      next h => rcases h with h | h <;> simp [h]
      next h3 =>
        split
        next h => simp [h]
        next h4 =>
          simp only [mkStudent, if_neg h2, if_neg h3]
          simp only [Option.isSome_none, Bool.false_eq_true, false_iff]
          push_neg at h3 h4 ⊢
          exact ⟨h1, by omega, h3.1, h3.2, h4⟩

theorem updateStudent_notFound (s : List Student) (r : Int) (n : String) (m : ℚ)
    (h : ∀ st ∈ s, st.rollNo ≠ r) :
    updateStudent s r n m = (s, some .notFound) := by
  have hidx : findStudentIndex s r = -1 := (findStudentIndex_eq_neg1_iff s r).mpr h
  simp [updateStudent, hidx]

theorem updateStudent_success (s : List Student) (r : Int) (n : String) (m : ℚ)
    (j : Nat) (hj : j < s.length) (hja : (s.getD j default).rollNo = r)
    (hfirst : ∀ k, k < j → (s.getD k default).rollNo ≠ r)
    (hn : ¬n = "") (hm : ¬(m < 0 ∨ m > 100)) :
    updateStudent s r n m
      = (s.set j { s.getD j default with name := n, marks := m }, none) := by
  have hidx : findStudentIndex s r = (j : Int) := findStudentIndex_found hj hja hfirst
  have hne : ¬(j : Int) = -1 := by omega
  simp only [updateStudent, hidx, if_neg hne, if_neg hn, if_neg hm, setName,
    setMarks, Int.toNat_natCast]

theorem updateStudent_store_eq_or_none (s : List Student) (r : Int) (n : String) (m : ℚ) :
    (updateStudent s r n m).1 = s ∨ (updateStudent s r n m).2 = none := by
  simp only [updateStudent]
  split
  · exact Or.inl rfl
  · split
    · exact Or.inl rfl
    · split
      · exact Or.inl rfl
      next hn hm =>
        simp only [setName, if_neg hn, setMarks, if_neg hm]
        exact Or.inr trivial

theorem updateStudent_map_rollNo (s : List Student) (r : Int) (n : String) (m : ℚ) :
    (updateStudent s r n m).1.map Student.rollNo = s.map Student.rollNo := by
  simp only [updateStudent]
  split
  · rfl
  next hfound =>
    split
    · rfl
    next hn =>
      split
      · rfl
      next hm =>
        simp only [setName, if_neg hn, setMarks, if_neg hm]
        have hex : ∃ st ∈ s, st.rollNo = r := by
          by_contra hc
          push_neg at hc
          exact hfound ((findStudentIndex_eq_neg1_iff s r).mpr hc)
        obtain ⟨j, hj, hja, hfirst⟩ := exists_first_index s r hex
        have hidx : findStudentIndex s r = (j : Int) := findStudentIndex_found hj hja hfirst
        rw [hidx, Int.toNat_natCast, List.map_set]
        have hgd : (s.getD j default).rollNo = (s.map Student.rollNo).getD j 0 :=
          (getD_map_rollNo s j).symm
        calc (s.map Student.rollNo).set j (s.getD j default).rollNo
            = (s.map Student.rollNo).set j ((s.map Student.rollNo).getD j 0) := by rw [hgd]
          _ = s.map Student.rollNo :=
            set_getD_self _ j 0 (by simpa using hj)

/-! ### The statistics accumulation loop -/

theorem statsLoop_total (l : List Student) :
    ∀ acc : ℚ × ℚ × ℚ, (statsLoop l acc).1 = acc.1 + (l.map Student.marks).sum := by
  induction l with
  | nil => intro acc; simp [statsLoop]
  | cons s t ih =>
    intro acc
    simp only [statsLoop, List.map_cons, List.sum_cons]
    rw [ih]
    dsimp only
    ring

theorem statsLoop_max_spec (l : List Student) :
    ∀ acc : ℚ × ℚ × ℚ,
      ((statsLoop l acc).2.1 = acc.2.1 ∨ (statsLoop l acc).2.1 ∈ l.map Student.marks)
        ∧ acc.2.1 ≤ (statsLoop l acc).2.1
        ∧ ∀ q ∈ l.map Student.marks, q ≤ (statsLoop l acc).2.1 := by
  induction l with
  | nil => intro acc; exact ⟨Or.inl rfl, le_refl _, by simp⟩
  | cons s t ih =>
    intro acc
    simp only [statsLoop, List.map_cons]
    obtain ⟨hmem, hle, hall⟩ := ih
      (acc.1 + s.marks,
       if s.marks > acc.2.1 then s.marks else acc.2.1,
       if s.marks < acc.2.2 then s.marks else acc.2.2)
    dsimp only at hmem hle hall
    refine ⟨?_, ?_, ?_⟩
    · rcases hmem with h | h
      · rw [h]
        by_cases hgt : s.marks > acc.2.1
        · rw [if_pos hgt]
          exact Or.inr (List.mem_cons_self _ _)
        · rw [if_neg hgt]
          exact Or.inl rfl
      · exact Or.inr (List.mem_cons_of_mem _ h)
    · refine le_trans ?_ hle
      by_cases hgt : s.marks > acc.2.1
      · rw [if_pos hgt]
        exact le_of_lt hgt
      · rw [if_neg hgt]
    · intro q hq
      rcases List.mem_cons.mp hq with rfl | hq2
      · refine le_trans ?_ hle
        by_cases hgt : s.marks > acc.2.1
        · rw [if_pos hgt]
        · rw [if_neg hgt]
          exact le_of_not_lt hgt
      · exact hall q hq2

theorem statsLoop_min_spec (l : List Student) :
    ∀ acc : ℚ × ℚ × ℚ,
      ((statsLoop l acc).2.2 = acc.2.2 ∨ (statsLoop l acc).2.2 ∈ l.map Student.marks)
        ∧ (statsLoop l acc).2.2 ≤ acc.2.2
        ∧ ∀ q ∈ l.map Student.marks, (statsLoop l acc).2.2 ≤ q := by
  induction l with
  | nil => intro acc; exact ⟨Or.inl rfl, le_refl _, by simp⟩
  | cons s t ih =>
    intro acc
    simp only [statsLoop, List.map_cons]
    obtain ⟨hmem, hle, hall⟩ := ih
      (acc.1 + s.marks,
       if s.marks > acc.2.1 then s.marks else acc.2.1,
       if s.marks < acc.2.2 then s.marks else acc.2.2)
    dsimp only at hmem hle hall
    refine ⟨?_, ?_, ?_⟩
    · rcases hmem with h | h
      · rw [h]
        by_cases hlt : s.marks < acc.2.2
        · rw [if_pos hlt]
          exact Or.inr (List.mem_cons_self _ _)
        · rw [if_neg hlt]
          exact Or.inl rfl
      · exact Or.inr (List.mem_cons_of_mem _ h)
    · refine le_trans hle ?_
      by_cases hlt : s.marks < acc.2.2
      · rw [if_pos hlt]
        exact le_of_lt hlt
      · rw [if_neg hlt]
    · intro q hq
      rcases List.mem_cons.mp hq with rfl | hq2
      · refine le_trans hle ?_
        by_cases hlt : s.marks < acc.2.2
        · rw [if_pos hlt]
        · rw [if_neg hlt]
          exact le_of_not_lt hlt
      · exact hall q hq2

/-! ### Preservation of roll-number uniqueness -/

/-- The data-model invariant: at most one record per roll number. -/
abbrev rollNosNodup (s : List Student) : Prop := (s.map Student.rollNo).Nodup

theorem not_mem_map_of_forall {s : List Student} {r : Int}
    (h : ∀ st ∈ s, st.rollNo ≠ r) : r ∉ s.map Student.rollNo := by
  intro hmem
  obtain ⟨st, hst, heq⟩ := List.mem_map.mp hmem
  exact h st hst heq

theorem addStudent_preserves_nodup (s : List Student) (n : String) (r : Int) (m : ℚ)
    (h : rollNosNodup s) : rollNosNodup (addStudent s n r m).1 := by
  by_cases herr : (addStudent s n r m).2.isSome
  · rcases addStudent_store_eq_or_none s n r m with heq | hnone
    · rw [heq]; exact h
    · rw [hnone] at herr; simp at herr
  · have hcond := (addStudent_error_iff s n r m).not.mpr ?hc
    case hc =>
      rw [addStudent_error_iff] at herr
      exact herr
    rw [addStudent_error_iff] at hcond
    push_neg at hcond
    obtain ⟨h1, h2, h3, h4, h5⟩ := hcond
    rw [addStudent_success s n r m h1 (by omega) (by push_neg; exact ⟨h3, h4⟩) h5]
    dsimp only [rollNosNodup]
    rw [List.map_append, List.nodup_append]
    refine ⟨h, by simp, ?_⟩
    intro x hx hx2
    simp only [List.map_cons, List.map_nil, List.mem_cons, List.not_mem_nil,
      or_false] at hx2
    rw [hx2] at hx
    exact not_mem_map_of_forall ((findStudentIndex_eq_neg1_iff s r).mp h5) hx

theorem updateStudent_preserves_nodup (s : List Student) (r : Int) (n : String) (m : ℚ)
    (h : rollNosNodup s) : rollNosNodup (updateStudent s r n m).1 := by
  show ((updateStudent s r n m).1.map Student.rollNo).Nodup
  rw [updateStudent_map_rollNo]
  exact h

theorem deleteStudent_preserves_nodup (s : List Student) (r : Int)
    (h : rollNosNodup s) : rollNosNodup (deleteStudent s r).1 := by
  simp only [deleteStudent]
  split
  · exact h
  · show ((s.eraseIdx _).map Student.rollNo).Nodup
    rw [map_eraseIdx_comm]
    exact List.Nodup.sublist (List.eraseIdx_sublist _ _) h

theorem loadFromFile_preserves_nodup (file : Option (List Char)) (s : List Student)
    (h : rollNosNodup s)
    (hfile : ∀ cs, file = some cs → cs = [] ∨ cs.getLast? = some '\n') :
    rollNosNodup (loadFromFile file s).1 := by
  cases file with
  | none => exact h
  | some cs =>
    rw [loadFromFile_clears_endsNL cs s (hfile cs rfl)]
    simp [rollNosNodup]

/-- The store states reachable from program start (`students` initialised
empty, then any sequence of load, add, update, delete). -/
inductive Reachable : List Student → Prop where
  | init : Reachable []
  | load (file : Option (List Char)) (s s' : List Student) (e : Option StudentError)
      (hs : Reachable s) (h : loadFromFile file s = (s', e)) : Reachable s'
  | add (s : List Student) (n : String) (r : Int) (m : ℚ) (s' : List Student)
      (e : Option StudentError) (hs : Reachable s) (h : addStudent s n r m = (s', e)) :
      Reachable s'
  | update (s : List Student) (r : Int) (n : String) (m : ℚ) (s' : List Student)
      (e : Option StudentError) (hs : Reachable s) (h : updateStudent s r n m = (s', e)) :
      Reachable s'
  | delete (s : List Student) (r : Int) (s' : List Student) (e : Option StudentError)
      (hs : Reachable s) (h : deleteStudent s r = (s', e)) : Reachable s'

/-- Reachability when `loadFromFile` is only ever applied to a missing file
or to contents that are empty or newline-terminated — as every `saveToFile`
output is.  (Unrestricted `Reachable` admits duplicate roll numbers: see the
counterexample below.) -/
inductive ReachableNL : List Student → Prop where
  | init : ReachableNL []
  | load (file : Option (List Char)) (s s' : List Student) (e : Option StudentError)
      (hfile : ∀ cs, file = some cs → cs = [] ∨ cs.getLast? = some '\n')
      (hs : ReachableNL s) (h : loadFromFile file s = (s', e)) : ReachableNL s'
  | add (s : List Student) (n : String) (r : Int) (m : ℚ) (s' : List Student)
      (e : Option StudentError) (hs : ReachableNL s) (h : addStudent s n r m = (s', e)) :
      ReachableNL s'
  | update (s : List Student) (r : Int) (n : String) (m : ℚ) (s' : List Student)
      (e : Option StudentError) (hs : ReachableNL s)
      (h : updateStudent s r n m = (s', e)) : ReachableNL s'
  | delete (s : List Student) (r : Int) (s' : List Student) (e : Option StudentError)
      (hs : ReachableNL s) (h : deleteStudent s r = (s', e)) : ReachableNL s'

/-! ### The claims -/

/-- Claim C1 (code bug): the claimed save/load round-trip fails on the code.
Saving the store [("Alice",1,88.5), ("Bob",2,42.0)] and loading the resulting
file yields the empty store with a corruption error — the reader treats
end-of-file at the next name line as a read failure, and the corruption
handler discards every record — so the reloaded store is not the original. -/
theorem roundtrip_fails_on_populated_store :
    loadFromFile (some (saveToFile
        [{ name := "Alice", rollNo := 1, marks := (177 : ℚ) / 2 },
         { name := "Bob", rollNo := 2, marks := 42 }])) []
      = ([], some .corrupted)
    ∧ ([] : List Student) ≠
        [{ name := "Alice", rollNo := 1, marks := (177 : ℚ) / 2 },
         { name := "Bob", rollNo := 2, marks := 42 }] :=
  ⟨loadFromFile_save_clears _ _, by decide⟩

/-- Claim C2 counterexample: the claim fails on a file whose last marks token
is terminated directly by end-of-file.  Loading "Bob\n2\n42\nAlice\n1\n88.5"
keeps [("Bob",2,42.0)] and reports no error (the source prints "Data loaded
successfully. 1 records found."): the float read sets `eofbit` only, the
following `ignore()` sets `failbit` without throwing, the `while` condition
turns false and the loop exits cleanly — not through the corruption
handler — with a non-empty store. -/
theorem load_eof_marks_keeps_records_counterexample :
    loadFromFile (some ("Bob\n2\n42\nAlice\n1\n88.5".data)) []
      = ([{ name := "Bob", rollNo := 2, marks := 42 }], none)
    ∧ (loadFromFile (some ("Bob\n2\n42\nAlice\n1\n88.5".data)) []).1 ≠ []
    ∧ (loadFromFile (some ("Bob\n2\n42\nAlice\n1\n88.5".data)) []).2 = none :=
  ⟨by decide, by decide, by decide⟩

/-- Claim C2 as amended: for every existing file that is empty or ends with a
newline — in particular every file `saveToFile` produces, since it terminates
each record with a newline — load ends in the corruption branch with an empty
store, because end-of-file when reading the next record's name line is a read
failure.  On the exact file written for [("Alice",1,88.5), ("Bob",2,42.0)]
the loop parses both records and then discards them.  Only a file whose last
marks token runs into end-of-file escapes this (see the counterexample). -/
theorem load_newline_terminated_always_empty :
    (∀ (cs : List Char) (students : List Student),
        (cs = [] ∨ cs.getLast? = some '\n') →
        loadFromFile (some cs) students = ([], some .corrupted))
    ∧ (∀ store prior : List Student,
        loadFromFile (some (saveToFile store)) prior = ([], some .corrupted))
    ∧ readStudent [] = .corrupt
    ∧ loadLoop
        ((saveToFile [{ name := "Alice", rollNo := 1, marks := (177 : ℚ) / 2 },
            { name := "Bob", rollNo := 2, marks := 42 }]).length + 1)
        (saveToFile [{ name := "Alice", rollNo := 1, marks := (177 : ℚ) / 2 },
            { name := "Bob", rollNo := 2, marks := 42 }]) []
      = ([{ name := "Alice", rollNo := 1, marks := (177 : ℚ) / 2 },
          { name := "Bob", rollNo := 2, marks := 42 }], some .corrupted) :=
  ⟨loadFromFile_clears_endsNL, loadFromFile_save_clears, rfl, by decide⟩

/-- Instance of the amended C2 at a concrete newline-terminated file and a
non-empty prior store. -/
theorem load_newline_terminated_always_empty_witness :
    loadFromFile (some ['\n']) [{ name := "X", rollNo := 9, marks := 5 }]
      = ([], some .corrupted) :=
  load_newline_terminated_always_empty.1 ['\n'] _ (Or.inr (by decide))

/-- Claim C3: whenever the contents fail to parse mid-stream (the reader
eventually hits an unreadable name line, non-integer roll number or
non-numeric marks), load discards every record parsed so far for this load,
reports the corruption error, and the caller continues with an empty store
(`loadFromFile` is total: no abort).  Concretely: a dangling name line after
one good record discards that record and any prior store content; a
non-integer roll number and non-numeric marks fail the same way. -/
theorem load_parse_failure_discards_all :
    (∀ (cs : List Char) (students : List Student), ParseFailsFrom cs →
        loadFromFile (some cs) students = ([], some .corrupted))
    ∧ loadLoop (("Bob\n2\n42\nAlice\n".data).length + 1) ("Bob\n2\n42\nAlice\n".data) []
        = ([{ name := "Bob", rollNo := 2, marks := 42 }], some .corrupted)
    ∧ loadFromFile (some ("Bob\n2\n42\nAlice\n".data))
        [{ name := "Old", rollNo := 7, marks := 1 }] = ([], some .corrupted)
    ∧ loadFromFile (some ("A\nx1\n50\n".data)) [] = ([], some .corrupted)
    ∧ loadFromFile (some ("A\n1\nxx\n".data)) [] = ([], some .corrupted) :=
  ⟨fun cs students h => loadFromFile_clears_of_parseFails cs students h,
    by decide, by decide, by decide, by decide⟩

/-- Instance of C3: a file that fails at its second record's roll number read
discards the first record and the prior store. -/
theorem load_parse_failure_discards_all_witness :
    loadFromFile (some ("Alice\n".data)) [{ name := "Old", rollNo := 7, marks := 1 }]
      = ([], some .corrupted) :=
  load_parse_failure_discards_all.1 _ _ (ParseFailsFrom.here _ (by decide))

/-- Claim C4 counterexample: uniqueness is NOT preserved by load.  The file
"A\n1\n50\nB\n1\n60\nC\n2\n70" ends inside its last record's marks token, so
the loop exits cleanly keeping the two records already pushed — both with
roll number 1 — and the source prints "Data loaded successfully. 2 records
found.".  The resulting duplicate store is reachable from program start. -/
theorem load_duplicate_rollNo_counterexample :
    loadFromFile (some ("A\n1\n50\nB\n1\n60\nC\n2\n70".data)) []
      = ([{ name := "A", rollNo := 1, marks := 50 },
          { name := "B", rollNo := 1, marks := 60 }], none)
    ∧ Reachable [{ name := "A", rollNo := 1, marks := 50 },
          { name := "B", rollNo := 1, marks := 60 }]
    ∧ ¬ rollNosNodup [{ name := "A", rollNo := 1, marks := 50 },
          { name := "B", rollNo := 1, marks := 60 }] := by
  refine ⟨by decide, ?_, by decide⟩
  exact Reachable.load (some ("A\n1\n50\nB\n1\n60\nC\n2\n70".data)) [] _ none
    Reachable.init (by decide)

/-- Claim C4 as amended: add, update and delete always preserve
at-most-one-record-per-roll-number; load preserves it for a missing file and
for empty or newline-terminated contents (it then leaves the store alone or
clears it); consequently every state reachable with load restricted to such
files — which includes every `saveToFile` output — satisfies the invariant.
A load whose file ends inside a marks token escapes this: it keeps the parsed
records without any duplicate check (see the counterexample). -/
theorem ops_preserve_rollNos_nodup :
    (∀ s, ReachableNL s → rollNosNodup s)
    ∧ (∀ (s : List Student) (n n2 : String) (r r2 r3 : Int) (m m2 : ℚ),
        rollNosNodup s →
        rollNosNodup (addStudent s n r m).1
        ∧ rollNosNodup (updateStudent s r2 n2 m2).1
        ∧ rollNosNodup (deleteStudent s r3).1)
    ∧ (∀ (s : List Student) (file : Option (List Char)), rollNosNodup s →
        (∀ cs, file = some cs → cs = [] ∨ cs.getLast? = some '\n') →
        rollNosNodup (loadFromFile file s).1) := by
  refine ⟨?_, ?_, ?_⟩
  · intro s hs
    induction hs with
    | init => simp [rollNosNodup]
    | load file s s2 e hfile hs h ih =>
      have hp := loadFromFile_preserves_nodup file s ih hfile
      rw [h] at hp
      exact hp
    | add s n r m s2 e hs h ih =>
      have hp := addStudent_preserves_nodup s n r m ih
      rw [h] at hp
      exact hp
    | update s r n m s2 e hs h ih =>
      have hp := updateStudent_preserves_nodup s r n m ih
      rw [h] at hp
      exact hp
    | delete s r s2 e hs h ih =>
      have hp := deleteStudent_preserves_nodup s r ih
      rw [h] at hp
      exact hp
  · intro s n n2 r r2 r3 m m2 h
    exact ⟨addStudent_preserves_nodup s n r m h,
      updateStudent_preserves_nodup s r2 n2 m2 h,
      deleteStudent_preserves_nodup s r3 h⟩
  · intro s file h hfile
    exact loadFromFile_preserves_nodup file s h hfile

/-- Concrete instance of the amended invariant: a reachable singleton store,
preservation under a successful add, and under a newline-terminated load. -/
theorem ops_preserve_rollNos_nodup_witness :
    rollNosNodup [{ name := "A", rollNo := 1, marks := 50 }]
    ∧ rollNosNodup (addStudent [{ name := "A", rollNo := 1, marks := 50 }] "B" 2 60).1
    ∧ rollNosNodup (loadFromFile (some ("Z\n".data))
        [{ name := "A", rollNo := 1, marks := 50 }]).1 :=
  ⟨ops_preserve_rollNos_nodup.1 [{ name := "A", rollNo := 1, marks := 50 }]
      (ReachableNL.add [] "A" 1 50 [{ name := "A", rollNo := 1, marks := 50 }] none
        ReachableNL.init (by decide)),
   (ops_preserve_rollNos_nodup.2.1 [{ name := "A", rollNo := 1, marks := 50 }]
      "B" "" 2 0 0 60 0 (by decide)).1,
   ops_preserve_rollNos_nodup.2.2 [{ name := "A", rollNo := 1, marks := 50 }]
      (some ("Z\n".data)) (by decide)
      (fun cs hcs => by
        rw [Option.some.injEq] at hcs
        subst hcs
        exact Or.inr (by decide))⟩

/-- Claim C5: whenever add or update reports an error — validation failure,
duplicate roll number on add, or lookup failure — the store is left
completely unchanged; in particular a duplicate add keeps the record count. -/
theorem failed_ops_leave_store_unchanged (s : List Student) (n n2 : String)
    (r r2 : Int) (m m2 : ℚ) :
    ((addStudent s n r m).2.isSome → (addStudent s n r m).1 = s)
    ∧ ((updateStudent s r2 n2 m2).2.isSome → (updateStudent s r2 n2 m2).1 = s)
    ∧ ((∃ st ∈ s, st.rollNo = r) →
        (addStudent s n r m).2.isSome ∧ (addStudent s n r m).1.length = s.length) := by
  have hadd : (addStudent s n r m).2.isSome → (addStudent s n r m).1 = s := by
    intro herr
    rcases addStudent_store_eq_or_none s n r m with heq | hnone
    · exact heq
    · rw [hnone] at herr
      simp at herr
  refine ⟨hadd, ?_, ?_⟩
  · intro herr
    rcases updateStudent_store_eq_or_none s r2 n2 m2 with heq | hnone
    · exact heq
    · rw [hnone] at herr
      simp at herr
  · intro hex
    have hfind : findStudentIndex s r ≠ -1 := by
      rw [ne_eq, findStudentIndex_eq_neg1_iff]
      intro hall
      obtain ⟨st, hst, heq⟩ := hex
      exact hall st hst heq
    have herr := (addStudent_error_iff s n r m).mpr
      (Or.inr (Or.inr (Or.inr (Or.inr hfind))))
    exact ⟨herr, by rw [hadd herr]⟩

/-- Instance of C5: a rejected add (empty name), a rejected update (missing
roll number), and a duplicate add all leave the store as it was. -/
theorem failed_ops_leave_store_unchanged_witness :
    (addStudent [] "" 0 0).1 = []
    ∧ (updateStudent [] 0 "x" 5).1 = []
    ∧ (addStudent [{ name := "A", rollNo := 1, marks := 50 }] "B" 1 60).1.length = 1 := by
  have h1 := failed_ops_leave_store_unchanged [] "" "x" 0 0 0 5
  have h2 := failed_ops_leave_store_unchanged
    [{ name := "A", rollNo := 1, marks := 50 }] "B" "" 1 0 60 0
  exact ⟨h1.1 (by decide), h1.2.1 (by decide),
    by simpa using (h2.2.2 ⟨{ name := "A", rollNo := 1, marks := 50 }, by decide, rfl⟩).2⟩

/-- Claim C6: add fails exactly when the name is empty, the roll number is
negative, the marks lie outside [0,100] (the bounds themselves being
accepted), or the roll number is already present; otherwise it appends the
new record at the end, leaving the existing records in place. -/
theorem addStudent_validation_iff (s : List Student) (n : String) (r : Int) (m : ℚ) :
    ((addStudent s n r m).2.isSome
      ↔ (n = "" ∨ r < 0 ∨ m < 0 ∨ m > 100 ∨ ∃ st ∈ s, st.rollNo = r))
    ∧ ((addStudent s n r m).2 = none →
        (addStudent s n r m).1 = s ++ [{ name := n, rollNo := r, marks := m }]) := by
  have hiff : (findStudentIndex s r ≠ -1) ↔ (∃ st ∈ s, st.rollNo = r) := by
    rw [ne_eq, findStudentIndex_eq_neg1_iff]
    constructor
    · intro hne
      by_contra hc
      push_neg at hc
      exact hne hc
    · rintro ⟨st, hst, heq⟩ hall
      exact hall st hst heq
  constructor
  · rw [addStudent_error_iff, hiff]
  · intro hnone
    have hcond : ¬(n = "" ∨ r < 0 ∨ m < 0 ∨ m > 100 ∨ findStudentIndex s r ≠ -1) := by
      rw [← addStudent_error_iff]
      simp [hnone]
    push_neg at hcond
    obtain ⟨h1, h2, h3, h4, h5⟩ := hcond
    rw [addStudent_success s n r m h1 (by omega) (by push_neg; exact ⟨h3, h4⟩) h5]

/-- Instance of C6: boundary marks 100 is accepted and appended, 100.01 and
-0.01 are rejected, 0 is accepted. -/
theorem addStudent_validation_iff_witness :
    (addStudent [] "A" 1 100).1 = [{ name := "A", rollNo := 1, marks := 100 }]
    ∧ (addStudent [] "A" 1 (10001 / 100 : ℚ)).2.isSome = true
    ∧ (addStudent [] "A" 1 (-1 / 100 : ℚ)).2.isSome = true
    ∧ (addStudent [] "A" 1 0).2 = none := by
  refine ⟨(addStudent_validation_iff [] "A" 1 100).2 (by decide), ?_, ?_, by decide⟩
  · exact (addStudent_validation_iff [] "A" 1 (10001 / 100)).1.mpr
      (Or.inr (Or.inr (Or.inr (Or.inl (by norm_num)))))
  · exact (addStudent_validation_iff [] "A" 1 (-1 / 100)).1.mpr
      (Or.inr (Or.inr (Or.inl (by norm_num))))

/-- Claim C7: update reports not-found when the roll number is absent; it
never changes any record's roll number; at the first index holding the roll
number, valid inputs rewrite exactly the name and marks of that record (all
other records untouched, via `List.set`), and invalid inputs leave the store
unchanged with an error. -/
theorem updateStudent_spec (s : List Student) (r : Int) (n : String) (m : ℚ) :
    ((∀ st ∈ s, st.rollNo ≠ r) → updateStudent s r n m = (s, some .notFound))
    ∧ (updateStudent s r n m).1.map Student.rollNo = s.map Student.rollNo
    ∧ (∀ j : Nat, j < s.length → (s.getD j default).rollNo = r →
        (∀ k, k < j → (s.getD k default).rollNo ≠ r) →
        (¬n = "" → ¬(m < 0 ∨ m > 100) →
          updateStudent s r n m
            = (s.set j { s.getD j default with name := n, marks := m }, none))
        ∧ ((n = "" ∨ m < 0 ∨ m > 100) →
            (updateStudent s r n m).1 = s ∧ (updateStudent s r n m).2.isSome)) := by
  refine ⟨updateStudent_notFound s r n m, updateStudent_map_rollNo s r n m, ?_⟩
  intro j hj hja hfirst
  have hidx : findStudentIndex s r = (j : Int) := findStudentIndex_found hj hja hfirst
  have hne : ¬(j : Int) = -1 := by omega
  constructor
  · intro hn hm
    exact updateStudent_success s r n m j hj hja hfirst hn hm
  · intro hbad
    by_cases hn : n = ""
    · constructor <;> simp [updateStudent, hidx, if_neg hne, hn]
    · have hm : m < 0 ∨ m > 100 := by tauto
      constructor <;>
        simp [updateStudent, hidx, if_neg hne, if_neg hn, if_pos hm]

/-- Instance of C7: updating a missing roll number fails; updating a present
one rewrites name and marks in place and keeps the roll number. -/
theorem updateStudent_spec_witness :
    updateStudent [{ name := "A", rollNo := 1, marks := 50 }] 2 "B" 60
      = ([{ name := "A", rollNo := 1, marks := 50 }], some .notFound)
    ∧ updateStudent [{ name := "A", rollNo := 1, marks := 50 }] 1 "B" 60
      = ([{ name := "B", rollNo := 1, marks := 60 }], none) := by
  refine ⟨(updateStudent_spec [{ name := "A", rollNo := 1, marks := 50 }] 2 "B" 60).1
      (by decide), ?_⟩
  have h := ((updateStudent_spec [{ name := "A", rollNo := 1, marks := 50 }] 1 "B" 60).2.2
      0 (by decide) (by decide) (fun k hk => absurd hk (by omega))).1
      (by decide) (by decide)
  rw [h]
  decide

/-- Claim C8: under the data-model invariant (unique roll numbers), deleting a
present roll number succeeds, removes exactly that record (the result is the
take/drop splice around its index, so the remaining order is preserved),
shrinks the store by one, and a subsequent lookup reports not-found; deleting
an absent roll number fails with not-found. -/
theorem deleteStudent_spec (s : List Student) (r : Int) (hnd : rollNosNodup s) :
    ((∃ st ∈ s, st.rollNo = r) →
        (deleteStudent s r).2 = none
        ∧ (deleteStudent s r).1.length + 1 = s.length
        ∧ findStudentIndex (deleteStudent s r).1 r = -1
        ∧ ∃ j : Nat, j < s.length
            ∧ (deleteStudent s r).1 = s.take j ++ s.drop (j + 1))
    ∧ ((∀ st ∈ s, st.rollNo ≠ r) → deleteStudent s r = (s, some .notFound)) := by
  constructor
  · intro hex
    obtain ⟨j, hj, hja, hfirst⟩ := exists_first_index s r hex
    have hidx : findStudentIndex s r = (j : Int) := findStudentIndex_found hj hja hfirst
    have hne : ¬(j : Int) = -1 := by omega
    have hdel : deleteStudent s r = (s.eraseIdx j, none) := by
      simp only [deleteStudent, hidx, if_neg hne, Int.toNat_natCast]
    rw [hdel]
    refine ⟨rfl, ?_, ?_, j, hj, by simp [List.eraseIdx_eq_take_drop_succ]⟩
    · dsimp only
      rw [List.length_eraseIdx, if_pos hj]
      omega
    · dsimp only
      rw [findStudentIndex_eq_neg1_iff]
      intro st hst heq
      have hmap : st.rollNo ∈ (s.eraseIdx j).map Student.rollNo :=
        List.mem_map_of_mem _ hst
      rw [map_eraseIdx_comm, heq] at hmap
      have hget : (s.map Student.rollNo).getD j 0 = r := by
        rw [getD_map_rollNo]
        exact hja
      have hnot := nodup_getD_not_mem_eraseIdx (s.map Student.rollNo) j hnd
        (by simpa using hj)
      rw [hget] at hnot
      exact hnot hmap
  · intro hall
    have hidx : findStudentIndex s r = -1 := (findStudentIndex_eq_neg1_iff s r).mpr hall
    simp [deleteStudent, hidx]

/-- Instance of C8: deleting roll number 1 from a two-record store succeeds,
leaves one record, makes 1 unfindable; deleting an absent roll number fails. -/
theorem deleteStudent_spec_witness :
    (deleteStudent [{ name := "A", rollNo := 1, marks := 50 },
        { name := "B", rollNo := 2, marks := 60 }] 1).2 = none
    ∧ (deleteStudent [{ name := "A", rollNo := 1, marks := 50 },
        { name := "B", rollNo := 2, marks := 60 }] 1).1.length + 1 = 2
    ∧ findStudentIndex (deleteStudent [{ name := "A", rollNo := 1, marks := 50 },
        { name := "B", rollNo := 2, marks := 60 }] 1).1 1 = -1
    ∧ deleteStudent [{ name := "A", rollNo := 1, marks := 50 },
        { name := "B", rollNo := 2, marks := 60 }] 3
      = ([{ name := "A", rollNo := 1, marks := 50 },
          { name := "B", rollNo := 2, marks := 60 }], some .notFound) := by
  have h := deleteStudent_spec [{ name := "A", rollNo := 1, marks := 50 },
    { name := "B", rollNo := 2, marks := 60 }] 1 (by decide)
  obtain ⟨h1, h2, h3, -⟩ := h.1
    ⟨{ name := "A", rollNo := 1, marks := 50 }, by decide, rfl⟩
  refine ⟨h1, by simpa using h2, h3, ?_⟩
  exact (deleteStudent_spec [{ name := "A", rollNo := 1, marks := 50 },
    { name := "B", rollNo := 2, marks := 60 }] 3 (by decide)).2 (by decide)

/-- Claim C9: statistics returns the empty signal on an empty store; on any
non-empty store it returns the record count, the arithmetic mean of marks,
and a maximum and minimum attained by some record and bounding every record;
on [("A",1,50), ("B",2,70), ("C",3,90)] it yields (3, 70, 90, 50). -/
theorem showStatistics_spec (s : List Student) :
    showStatistics [] = none
    ∧ (s ≠ [] →
        ∃ mx mn : ℚ,
          showStatistics s
            = some (s.length, (s.map Student.marks).sum / (s.length : ℚ), mx, mn)
          ∧ mx ∈ s.map Student.marks ∧ (∀ q ∈ s.map Student.marks, q ≤ mx)
          ∧ mn ∈ s.map Student.marks ∧ (∀ q ∈ s.map Student.marks, mn ≤ q))
    ∧ showStatistics [{ name := "A", rollNo := 1, marks := 50 },
        { name := "B", rollNo := 2, marks := 70 },
        { name := "C", rollNo := 3, marks := 90 }] = some (3, 70, 90, 50) := by
  refine ⟨rfl, ?_, by decide⟩
  intro hne
  cases s with
  | nil => exact absurd rfl hne
  | cons s0 t =>
    refine ⟨(statsLoop (s0 :: t) (0, s0.marks, s0.marks)).2.1,
            (statsLoop (s0 :: t) (0, s0.marks, s0.marks)).2.2, ?_, ?_, ?_, ?_, ?_⟩
    · simp only [showStatistics]
      have htot := statsLoop_total (s0 :: t) (0, s0.marks, s0.marks)
      dsimp only at htot
      rw [htot, zero_add]
    · rcases (statsLoop_max_spec (s0 :: t) (0, s0.marks, s0.marks)).1 with h | h
      · rw [h]
        simp
      · exact h
    · exact (statsLoop_max_spec (s0 :: t) (0, s0.marks, s0.marks)).2.2
    · rcases (statsLoop_min_spec (s0 :: t) (0, s0.marks, s0.marks)).1 with h | h
      · rw [h]
        simp
      · exact h
    · exact (statsLoop_min_spec (s0 :: t) (0, s0.marks, s0.marks)).2.2

/-- Instance of C9 on a singleton store. -/
theorem showStatistics_spec_witness :
    ∃ mx mn : ℚ,
      showStatistics [{ name := "A", rollNo := 1, marks := 50 }] = some (1, 50, mx, mn) := by
  obtain ⟨mx, mn, heq, -⟩ :=
    (showStatistics_spec [{ name := "A", rollNo := 1, marks := 50 }]).2.1 (by simp)
  exact ⟨mx, mn, by simpa using heq⟩

/-- Claim C10: adding a valid, fresh record and then searching its roll number
returns a record with exactly the added name, roll number and marks. -/
theorem add_then_find_returns_record (s : List Student) (n : String) (r : Int) (m : ℚ)
    (h1 : n ≠ "") (h2 : 0 ≤ r) (h3 : 0 ≤ m) (h4 : m ≤ 100)
    (h5 : ∀ st ∈ s, st.rollNo ≠ r) :
    (addStudent s n r m).2 = none
    ∧ searchStudent (addStudent s n r m).1 r
        = .ok { name := n, rollNo := r, marks := m } := by
  have hfind : findStudentIndex s r = -1 := (findStudentIndex_eq_neg1_iff s r).mpr h5
  have hsucc := addStudent_success s n r m h1 (by omega)
    (by push_neg; exact ⟨h3, h4⟩) hfind
  rw [hsucc]
  refine ⟨rfl, ?_⟩
  dsimp only
  have hidx : findStudentIndex (s ++ [{ name := n, rollNo := r, marks := m }]) r
      = (s.length : Int) := by
    unfold findStudentIndex
    rw [findStudentIndexAux_append_no_match s _ r h5 0]
    simp [findStudentIndexAux]
  have hne : ¬(s.length : Int) = -1 := by omega
  simp only [searchStudent, hidx, if_neg hne, Int.toNat_natCast]
  rw [getD_append_length]

/-- Instance of C10 on the empty store. -/
theorem add_then_find_returns_record_witness :
    (addStudent [] "A" 1 50).2 = none
    ∧ searchStudent (addStudent [] "A" 1 50).1 1
        = .ok { name := "A", rollNo := 1, marks := 50 } :=
  add_then_find_returns_record [] "A" 1 50 (by decide) (by decide) (by decide)
    (by decide) (by simp)

end StudentManagementSystem
